import Mathlib

/-
Verification of the EEG LOSO classification pipeline (exp3): shallow
embedding of src/exp3/BCI_raw.py and src/exp3/feature_extractor.py.

Real-valued sample data is modelled over the rationals.  Library calls
whose outputs are irrational or operate on external state (scipy's
welch/fft/filtfilt, np.sqrt/np.log/np.exp) are modelled as explicit
inputs (an oracle record), while every arithmetic step performed by the
repository's own code is embedded exactly.
-/

/-- The five named EEG frequency bands. -/
inductive Band
  | delta
  | theta
  | alpha
  | beta
  | gamma
  deriving DecidableEq, Repr

/-- Iteration order of the band dictionaries (insertion order in both files). -/
def allBands : List Band := [.delta, .theta, .alpha, .beta, .gamma]

/-- FeatureExtractor.bands (BCI_raw.py lines 59-65): band name to (low, high) Hz. -/
def bands : Band → ℚ × ℚ
  | .delta => (1/2, 4)
  | .theta => (4, 8)
  | .alpha => (8, 13)
  | .beta => (13, 30)
  | .gamma => (30, 45)

/-- EEGFeatureExtractor.freq_bands (feature_extractor.py lines 29-35). -/
def freq_bands : Band → ℚ × ℚ
  | .delta => (1/2, 4)
  | .theta => (4, 8)
  | .alpha => (8, 13)
  | .beta => (13, 30)
  | .gamma => (30, 50)

/-- The 1e-12 guard constant used throughout BCI_raw.py. -/
def eps : ℚ := 1 / 10 ^ 12

/-- One sampled point (frequency, power) of a Welch power spectral density. -/
abbrev PsdPoint : Type := ℚ × ℚ

/-- np.trapz over PSD points: sum of trapezoids between consecutive samples. -/
def trapz : List PsdPoint → ℚ
  | [] => 0
  | [_] => 0
  | p :: q :: rest => (q.1 - p.1) * (p.2 + q.2) / 2 + trapz (q :: rest)

/-- total_power = np.trapz(Pxx, f) + 1e-12  (BCI_raw.py line 95). -/
def total_power (pts : List PsdPoint) : ℚ := trapz pts + eps

/-- The band mask np.logical_and(f >= lo, f < hi)  (BCI_raw.py line 99). -/
def inBand (b : Band) (p : PsdPoint) : Bool :=
  decide ((bands b).1 ≤ p.1 ∧ p.1 < (bands b).2)

/-- Absolute band power: np.trapz(Pxx[idx], f[idx])  (BCI_raw.py line 100). -/
def band_abs (pts : List PsdPoint) (b : Band) : ℚ := trapz (pts.filter (inBand b))

/-- Relative band power: power / total_power  (BCI_raw.py line 102). -/
def band_rel (pts : List PsdPoint) (b : Band) : ℚ := band_abs pts b / total_power pts

/-- The PSD frequency grid is sorted in increasing order. -/
abbrev sortedPsd (pts : List PsdPoint) : Prop :=
  pts.Pairwise (fun p q => p.1 ≤ q.1)

/-- The PSD values are non-negative. -/
abbrev nonnegPsd (pts : List PsdPoint) : Prop := ∀ p ∈ pts, 0 ≤ p.2

/-- The while loop of create_segments (BCI_raw.py lines 187-193), with explicit
fuel standing for the unbounded while; `none` means the loop did not terminate
within the given fuel. -/
def segLoop (L step : ℕ) (data : List ℚ) : ℕ → ℕ → Option (List (List ℚ))
  | 0, start =>
    if start + L ≤ data.length then none else some []
  | fuel + 1, start =>
    if start + L ≤ data.length then
      (segLoop L step data fuel (start + step)).map
        (fun rest => (data.drop start).take L :: rest)
    else some []

/-- The slice segments[70:-80] applied to the collected windows
(BCI_raw.py line 195): drop the first 70 windows and the last 80. -/
def sliceTrim (s : List (List ℚ)) : List (List ℚ) :=
  (s.drop 70).take (s.length - 150)

/-- create_segments (BCI_raw.py lines 181-195).  Returns the empty list when
the signal is shorter than one window, otherwise runs the collection loop and
applies the segments[70:-80] slice. -/
def create_segments (data : List ℚ) (L overlap fuel : ℕ) : Option (List (List ℚ)) :=
  if data.length < L then some []
  else (segLoop L (L - overlap) data fuel 0).map sliceTrim

/-- Config.SAMPLING_RATE (BCI_raw.py line 40). -/
def samplingRateCfg : ℕ := 500

/-- Config.SEGMENT_LENGTH in seconds (BCI_raw.py line 41). -/
def segmentLengthCfg : ℕ := 5

/-- segment_length_samples = int(SEGMENT_LENGTH * SAMPLING_RATE) (line 284). -/
def segment_samples : ℕ := segmentLengthCfg * samplingRateCfg

/-- num_features and k in EnhancedBCIClassifier.__init__ (BCI_raw.py lines
218-220): k = min(configured N_FEATURES_SELECT, SAMPLING_RATE * SEGMENT_LENGTH),
as a function of the configured selector size. -/
def k_features (configured_k : ℕ) : ℕ :=
  min configured_k (samplingRateCfg * segmentLengthCfg)

/-- With a positive stride, the collection loop terminates given enough fuel
and produces exactly (N - L - start)/step + 1 windows while the guard holds. -/
lemma segLoop_count (L step : ℕ) (data : List ℚ) (hstep : 0 < step) :
    ∀ fuel start,
      (if start + L ≤ data.length then (data.length - L - start) / step + 1 else 0) ≤ fuel →
      ∃ segs, segLoop L step data fuel start = some segs ∧
        segs.length =
          (if start + L ≤ data.length then (data.length - L - start) / step + 1 else 0) := by
  intro fuel
  induction fuel with
  | zero =>
    intro start h
    by_cases hg : start + L ≤ data.length
    · simp [hg] at h
    · exact ⟨[], by simp [segLoop, hg], by simp [hg]⟩
  | succ fuel ih =>
    intro start h
    by_cases hg : start + L ≤ data.length
    · have hrec :
          (if start + step + L ≤ data.length then
              (data.length - L - (start + step)) / step + 1 else 0) ≤ fuel := by
        by_cases hg2 : start + step + L ≤ data.length
        · have hsub : data.length - L - (start + step)
              = data.length - L - start - step := by omega
          have hdiv : (data.length - L - start) / step
              = (data.length - L - start - step) / step + 1 :=
            Nat.div_eq_sub_div hstep (by omega)
          simp only [hg2, if_true, hsub]
          simp only [hg, if_true] at h
          omega
        · simp [hg2]
      obtain ⟨segs, hsegs, hlen⟩ := ih (start + step) hrec
      refine ⟨(data.drop start).take L :: segs, ?_, ?_⟩
      · simp [segLoop, hg, hsegs]
      · by_cases hg2 : start + step + L ≤ data.length
        · have hsub : data.length - L - (start + step)
              = data.length - L - start - step := by omega
          have hdiv : (data.length - L - start) / step
              = (data.length - L - start - step) / step + 1 :=
            Nat.div_eq_sub_div hstep (by omega)
          simp only [hg2, if_true, hsub] at hlen
          simp only [hg, if_true, List.length_cons, hlen]
          omega
        · have hzero : (data.length - L - start) / step = 0 :=
            Nat.div_eq_of_lt (by omega)
          simp only [hg2, if_false] at hlen
          simp [hg, hlen, hzero]
    · exact ⟨[], by simp [segLoop, hg], by simp [hg]⟩

/-- C1 (amended): for window length L >= 1 and overlap ratio r in [0,1), with
overlap_samples = floor(L*r) and stride = L - overlap_samples, create_segments
on a signal of N samples terminates and returns
(floor((N-L)/stride) + 1) - 150 windows (natural subtraction, i.e. 150 fewer
than the windowing formula, clamped at 0) when N >= L, and 0 windows when
N < L: the slice segments[70:-80] discards the first 70 and last 80 windows. -/
theorem create_segments_count (data : List ℚ) (L : ℕ) (r : ℚ)
    (hL : 1 ≤ L) (hr0 : 0 ≤ r) (hr1 : r < 1) :
    ∃ segs,
      create_segments data L (⌊(L : ℚ) * r⌋).toNat (data.length + 1) = some segs ∧
      segs.length =
        if data.length < L then 0
        else (data.length - L) / (L - (⌊(L : ℚ) * r⌋).toNat) + 1 - 150 := by
  have hfl0 : (0 : ℤ) ≤ ⌊(L : ℚ) * r⌋ :=
    Int.floor_nonneg.mpr (mul_nonneg (by positivity) hr0)
  have hflL : ⌊(L : ℚ) * r⌋ < (L : ℤ) := by
    apply Int.floor_lt.mpr
    push_cast
    calc (L : ℚ) * r < (L : ℚ) * 1 := by
          apply mul_lt_mul_of_pos_left hr1
          exact_mod_cast Nat.lt_of_lt_of_le Nat.zero_lt_one hL
      _ = (L : ℚ) := mul_one _
  have hov : (⌊(L : ℚ) * r⌋).toNat < L := by
    have hcast : ((⌊(L : ℚ) * r⌋).toNat : ℤ) = ⌊(L : ℚ) * r⌋ := Int.toNat_of_nonneg hfl0
    exact_mod_cast hcast ▸ hflL
  set ov : ℕ := (⌊(L : ℚ) * r⌋).toNat with hovdef
  have hstep : 0 < L - ov := by omega
  by_cases hN : data.length < L
  · refine ⟨[], ?_, by simp [hN]⟩
    simp [create_segments, hN]
  · have hfuel :
        (if 0 + L ≤ data.length then (data.length - L - 0) / (L - ov) + 1 else 0)
          ≤ data.length + 1 := by
      have hg : 0 + L ≤ data.length := by omega
      simp only [hg, if_true]
      have := Nat.div_le_self (data.length - L - 0) (L - ov)
      omega
    obtain ⟨segs0, hloop, hlen⟩ := segLoop_count L (L - ov) data hstep (data.length + 1) 0 hfuel
    refine ⟨sliceTrim segs0, ?_, ?_⟩
    · simp [create_segments, hN, hloop]
    · have hg : 0 + L ≤ data.length := by omega
      simp only [hg, if_true, Nat.sub_zero] at hlen
      simp only [sliceTrim, List.length_take, List.length_drop, hlen, hN, if_false]
      omega

set_option maxRecDepth 4000 in
/-- C1 witness: L = 1, r = 0 (stride 1), N = 160 samples: the loop collects
160 windows and the slice keeps 10 of them, matching 160/1 + 1 - 151. -/
theorem create_segments_count_witness :
    ∃ segs,
      create_segments (List.replicate 160 (0 : ℚ)) 1 ((⌊(1 : ℚ) * 0⌋).toNat)
          ((List.replicate 160 (0 : ℚ)).length + 1) = some segs ∧
      segs.length =
        if (List.replicate 160 (0 : ℚ)).length < 1 then 0
        else ((List.replicate 160 (0 : ℚ)).length - 1) / (1 - (⌊(1 : ℚ) * 0⌋).toNat) + 1 - 150 :=
  create_segments_count (List.replicate 160 (0 : ℚ)) 1 0 (by norm_num) (by norm_num) (by norm_num)

/-- C1 counterexample to the claim as stated: with L = 1, overlap ratio 0
(stride 1) a signal of exactly L samples yields 0 windows, not
floor((N-L)/stride) + 1 = 1: the slice segments[70:-80] discards the single
collected window. -/
theorem create_segments_claim_cex :
    create_segments [(0 : ℚ)] 1 ((⌊(1 : ℚ) * 0⌋).toNat) 2 = some [] ∧
    ((1 : ℕ) - 1) / (1 - (⌊(1 : ℚ) * 0⌋).toNat) + 1 = 1 := by
  have h0 : (⌊(1 : ℚ) * 0⌋).toNat = 0 := by norm_num
  rw [h0]
  constructor
  · decide
  · decide

/-- C5: overlap_ratio = 1 makes overlap_samples = int(L * 1) = L, hence stride
L - L = 0.  No configuration check rejects it anywhere in the pipeline:
create_segments is entered and its while loop never terminates on any signal
of at least L samples (here L = 2, a 2-sample signal): no fuel suffices. -/
theorem overlap_ratio_one_diverges :
    (⌊(2 : ℚ) * 1⌋).toNat = 2 ∧
    ∀ fuel, create_segments [(0 : ℚ), 0] 2 2 fuel = none := by
  have hloop : ∀ fuel, segLoop 2 0 [(0 : ℚ), 0] fuel 0 = none := by
    intro fuel
    induction fuel with
    | zero => decide
    | succ n ih => simpa [segLoop] using ih
  have h2 : ⌊(2 : ℚ) * 1⌋ = 2 := by norm_num
  refine ⟨by rw [h2]; rfl, fun fuel => ?_⟩
  simp [create_segments, hloop fuel]

/-- Trapezoidal integration of a sorted non-negative PSD is non-negative. -/
lemma trapz_nonneg : ∀ pts : List PsdPoint, sortedPsd pts → nonnegPsd pts → 0 ≤ trapz pts := by
  intro pts
  induction pts with
  | nil => intro _ _; simp [trapz]
  | cons p rest ih =>
    intro hs hn
    cases rest with
    | nil => simp [trapz]
    | cons q rest2 =>
      have hpq : p.1 ≤ q.1 := (List.pairwise_cons.mp hs).1 q (List.mem_cons_self q rest2)
      have hp2 : 0 ≤ p.2 := hn p (List.mem_cons_self _ _)
      have hq2 : 0 ≤ q.2 := hn q (List.mem_cons_of_mem _ (List.mem_cons_self _ _))
      have hrest : 0 ≤ trapz (q :: rest2) :=
        ih (List.pairwise_cons.mp hs).2 (fun x hx => hn x (List.mem_cons_of_mem _ hx))
      have hterm : 0 ≤ (q.1 - p.1) * (p.2 + q.2) / 2 :=
        div_nonneg (mul_nonneg (by linarith) (by linarith)) (by norm_num)
      simp only [trapz]
      linarith

/-- A head portion of a sorted non-negative PSD integrates to no more than
the whole list. -/
lemma trapz_prefix_le : ∀ l₂ l₃ : List PsdPoint, sortedPsd (l₂ ++ l₃) →
    nonnegPsd (l₂ ++ l₃) → trapz l₂ ≤ trapz (l₂ ++ l₃) := by
  intro l₂
  induction l₂ with
  | nil =>
    intro l₃ hs hn
    simpa [trapz] using trapz_nonneg l₃ (by simpa using hs) (fun x hx => hn x (by simp [hx]))
  | cons p rest ih =>
    intro l₃ hs hn
    cases rest with
    | nil =>
      have h0 : 0 ≤ trapz (p :: l₃) :=
        trapz_nonneg (p :: l₃) (by simpa using hs) (by simpa using hn)
      simpa [trapz] using h0
    | cons q rest2 =>
      have hs' : sortedPsd ((q :: rest2) ++ l₃) := (List.pairwise_cons.mp (by simpa using hs)).2
      have hn' : nonnegPsd ((q :: rest2) ++ l₃) := by
        intro x hx
        exact hn x (by simpa using List.mem_cons_of_mem p hx)
      have hrec := ih l₃ hs' hn'
      simp only [List.cons_append, List.append_eq, trapz] at hrec ⊢
      linarith

/-- A tail portion of a sorted non-negative PSD integrates to no more than
the whole list. -/
lemma trapz_suffix_le : ∀ l₁ l₂ : List PsdPoint, sortedPsd (l₁ ++ l₂) →
    nonnegPsd (l₁ ++ l₂) → trapz l₂ ≤ trapz (l₁ ++ l₂) := by
  intro l₁
  induction l₁ with
  | nil => intro l₂ _ _; simp
  | cons p rest ih =>
    intro l₂ hs hn
    have hs0 : sortedPsd (p :: (rest ++ l₂)) := by simpa using hs
    have hn0 : nonnegPsd (p :: (rest ++ l₂)) := by simpa using hn
    have hs' : sortedPsd (rest ++ l₂) := (List.pairwise_cons.mp hs0).2
    have hn' : nonnegPsd (rest ++ l₂) := fun x hx => hn0 x (List.mem_cons_of_mem _ hx)
    have hrec := ih l₂ hs' hn'
    cases hra : rest ++ l₂ with
    | nil =>
      obtain ⟨hrest0, hl2⟩ := List.append_eq_nil.mp hra
      subst hrest0
      subst hl2
      simp [trapz]
    | cons r rs =>
      have hpr : p.1 ≤ r.1 :=
        (List.pairwise_cons.mp hs0).1 r (by rw [hra]; exact List.mem_cons_self _ _)
      have hp2 : 0 ≤ p.2 := hn0 p (List.mem_cons_self _ _)
      have hr2 : 0 ≤ r.2 :=
        hn0 r (List.mem_cons_of_mem _ (by rw [hra]; exact List.mem_cons_self _ _))
      have hterm : 0 ≤ (r.1 - p.1) * (p.2 + r.2) / 2 :=
        div_nonneg (mul_nonneg (by linarith) (by linarith)) (by norm_num)
      calc trapz l₂ ≤ trapz (rest ++ l₂) := hrec
        _ = trapz (r :: rs) := by rw [hra]
        _ ≤ (r.1 - p.1) * (p.2 + r.2) / 2 + trapz (r :: rs) := by linarith
        _ = trapz (p :: r :: rs) := by simp only [trapz]
        _ = trapz ((p :: rest) ++ l₂) := by rw [List.cons_append, hra]

/-- On a frequency-sorted list whose keys all lie at or above lo, the band
filter keeps exactly the leading run of points below hi. -/
lemma filter_band_eq_takeWhile (lo hi : ℚ) : ∀ pts : List PsdPoint, sortedPsd pts →
    (∀ q ∈ pts, lo ≤ q.1) →
    pts.filter (fun p => decide (lo ≤ p.1 ∧ p.1 < hi)) =
      pts.takeWhile (fun p => decide (p.1 < hi)) := by
  intro pts
  induction pts with
  | nil => intro _ _; simp
  | cons p rest ih =>
    intro hs hall
    by_cases hhi : p.1 < hi
    · have hm : lo ≤ p.1 ∧ p.1 < hi := ⟨hall p (List.mem_cons_self _ _), hhi⟩
      have hrec := ih (List.pairwise_cons.mp hs).2
        (fun q hq => hall q (List.mem_cons_of_mem _ hq))
      rw [List.filter_cons, List.takeWhile_cons, decide_eq_true hm, decide_eq_true hhi]
      simp only [if_true]
      rw [hrec]
    · have hrest : rest.filter (fun p => decide (lo ≤ p.1 ∧ p.1 < hi)) = [] := by
        apply List.filter_eq_nil_iff.mpr
        intro q hq
        have hpq : p.1 ≤ q.1 := (List.pairwise_cons.mp hs).1 q hq
        simp only [decide_eq_true_eq, not_and, not_lt]
        intro _
        linarith [not_lt.mp hhi]
      have hm : ¬(lo ≤ p.1 ∧ p.1 < hi) := fun h => hhi h.2
      rw [List.filter_cons, List.takeWhile_cons, decide_eq_false hm, decide_eq_false hhi]
      simp only [Bool.false_eq_true, if_false]
      exact hrest

/-- On a frequency-sorted list the band filter f >= lo and f < hi selects a
contiguous run: drop the leading points below lo, then take while below hi. -/
lemma filter_band_eq_drop_take (lo hi : ℚ) : ∀ pts : List PsdPoint, sortedPsd pts →
    pts.filter (fun p => decide (lo ≤ p.1 ∧ p.1 < hi)) =
      (pts.dropWhile (fun p => decide (p.1 < lo))).takeWhile (fun p => decide (p.1 < hi)) := by
  intro pts
  induction pts with
  | nil => intro _; simp
  | cons p rest ih =>
    intro hs
    by_cases hlo : p.1 < lo
    · have hm : ¬(lo ≤ p.1 ∧ p.1 < hi) := fun h => absurd h.1 (not_le.mpr hlo)
      have hrec := ih (List.pairwise_cons.mp hs).2
      rw [List.filter_cons, List.dropWhile_cons, decide_eq_false hm, decide_eq_true hlo]
      simp only [Bool.false_eq_true, if_false, if_true]
      exact hrec
    · have hge : lo ≤ p.1 := not_lt.mp hlo
      have hall : ∀ q ∈ p :: rest, lo ≤ q.1 := by
        intro q hq
        rcases List.mem_cons.mp hq with hq | hq
        · exact hq ▸ hge
        · exact le_trans hge ((List.pairwise_cons.mp hs).1 q hq)
      rw [List.dropWhile_cons, decide_eq_false hlo]
      simp only [Bool.false_eq_true, if_false]
      exact filter_band_eq_takeWhile lo hi (p :: rest) hs hall

/-- The trapezoidal integral of the band-filtered points of a sorted
non-negative PSD is bounded by the integral of the full PSD. -/
lemma trapz_filter_band_le (lo hi : ℚ) (pts : List PsdPoint)
    (hs : sortedPsd pts) (hn : nonnegPsd pts) :
    trapz (pts.filter (fun p => decide (lo ≤ p.1 ∧ p.1 < hi))) ≤ trapz pts := by
  rw [filter_band_eq_drop_take lo hi pts hs]
  have hdw := List.takeWhile_append_dropWhile (fun p : PsdPoint => decide (p.1 < lo)) pts
  have hs1 : sortedPsd (pts.dropWhile (fun p => decide (p.1 < lo))) :=
    hs.sublist (List.dropWhile_sublist _)
  have hn1 : nonnegPsd (pts.dropWhile (fun p => decide (p.1 < lo))) :=
    fun x hx => hn x ((List.dropWhile_sublist _).subset hx)
  have h1 : trapz (pts.dropWhile (fun p => decide (p.1 < lo))) ≤ trapz pts := by
    conv_rhs => rw [← hdw]
    exact trapz_suffix_le _ _ (by rw [hdw]; exact hs) (by rw [hdw]; exact hn)
  have htw := List.takeWhile_append_dropWhile (fun p : PsdPoint => decide (p.1 < hi))
    (pts.dropWhile (fun p => decide (p.1 < lo)))
  have h2 : trapz ((pts.dropWhile (fun p => decide (p.1 < lo))).takeWhile
      (fun p => decide (p.1 < hi))) ≤ trapz (pts.dropWhile (fun p => decide (p.1 < lo))) := by
    conv_rhs => rw [← htw]
    exact trapz_prefix_le _ _ (by rw [htw]; exact hs1) (by rw [htw]; exact hn1)
  linarith

/-- Absolute band powers of a sorted non-negative PSD are non-negative. -/
lemma band_abs_nonneg (pts : List PsdPoint) (b : Band)
    (hs : sortedPsd pts) (hn : nonnegPsd pts) : 0 ≤ band_abs pts b :=
  trapz_nonneg _ (hs.sublist (List.filter_sublist pts))
    (fun x hx => hn x (List.mem_of_mem_filter hx))

/-- Absolute band power never exceeds the full-spectrum integral. -/
lemma band_abs_le_trapz (pts : List PsdPoint) (b : Band)
    (hs : sortedPsd pts) (hn : nonnegPsd pts) : band_abs pts b ≤ trapz pts :=
  trapz_filter_band_le (bands b).1 (bands b).2 pts hs hn

/-- The epsilon-guarded total power of a sorted non-negative PSD is positive. -/
lemma total_power_pos (pts : List PsdPoint) (hs : sortedPsd pts) (hn : nonnegPsd pts) :
    0 < total_power pts := by
  have h := trapz_nonneg pts hs hn
  have : (0 : ℚ) < eps := by norm_num [eps]
  simp only [total_power]
  linarith

/-- Sum of the five relative band powers of _bandpower. -/
def sum_band_rel (pts : List PsdPoint) : ℚ := (allBands.map (band_rel pts)).sum

/-- Sum of the five absolute band powers of _bandpower. -/
def sum_band_abs (pts : List PsdPoint) : ℚ := (allBands.map (band_abs pts)).sum

/-- C6: for every input window whose Welch PSD is non-negative (on the sorted
frequency grid), each of the 5 relative band powers of FeatureExtractor's
_bandpower lies in [0, 1], and their sum equals the sum of the absolute band
powers divided by the epsilon-guarded total power. -/
theorem band_rel_bounds (pts : List PsdPoint) (hs : sortedPsd pts) (hn : nonnegPsd pts) :
    (∀ b : Band, 0 ≤ band_rel pts b ∧ band_rel pts b ≤ 1) ∧
    sum_band_rel pts = sum_band_abs pts / total_power pts := by
  have htp := total_power_pos pts hs hn
  have htne : total_power pts ≠ 0 := ne_of_gt htp
  constructor
  · intro b
    have h0 := band_abs_nonneg pts b hs hn
    have h1 := band_abs_le_trapz pts b hs hn
    have h2 : band_abs pts b ≤ total_power pts := by
      have heps : (0 : ℚ) < eps := by norm_num [eps]
      simp only [total_power]
      linarith
    exact ⟨div_nonneg h0 (le_of_lt htp), (div_le_one htp).mpr h2⟩
  · simp only [sum_band_rel, sum_band_abs, allBands, List.map_cons, List.map_nil,
      List.sum_cons, List.sum_nil, band_rel]
    field_simp

/-- Concrete sorted non-negative PSD used to witness the C6 theorem. -/
def psdEx : List PsdPoint := [(0, 1), (4, 2), (9, 1), (20, 0), (40, 3)]

/-- C6 witness: the theorem applied to a concrete 5-point PSD. -/
theorem band_rel_bounds_witness :
    (∀ b : Band, 0 ≤ band_rel psdEx b ∧ band_rel psdEx b ≤ 1) ∧
    sum_band_rel psdEx = sum_band_abs psdEx / total_power psdEx :=
  band_rel_bounds psdEx (by decide) (by decide)

/-- C8 counterexample: the gamma interval differs between the two components:
(30, 45) Hz in FeatureExtractor.bands versus (30, 50) Hz in
EEGFeatureExtractor.freq_bands, so the band set is not one shared definition. -/
theorem bands_shared_cex : bands Band.gamma ≠ freq_bands Band.gamma := by decide

/-- C8 (amended): delta, theta, alpha and beta have identical (low, high)
intervals in both components, but gamma differs: upper edge 45 Hz in
FeatureExtractor.bands and 50 Hz in EEGFeatureExtractor.freq_bands. -/
theorem bands_shared_amended :
    (∀ b : Band, b ≠ Band.gamma → bands b = freq_bands b) ∧
    bands Band.gamma = (30, 45) ∧ freq_bands Band.gamma = (30, 50) := by
  refine ⟨?_, rfl, rfl⟩
  intro b hb
  cases b <;> simp_all [bands, freq_bands]

/-- C8 witness: the four agreeing bands, concretely. -/
theorem bands_shared_witness :
    bands Band.delta = freq_bands Band.delta ∧ bands Band.beta = freq_bands Band.beta :=
  ⟨bands_shared_amended.1 Band.delta (by decide),
   bands_shared_amended.1 Band.beta (by decide)⟩

/-- The per-window quantities FeatureExtractor.extract_features computes from
the band-pass-filtered segment before assembling its output (BCI_raw.py
lines 130-133, 149-152): absolute/relative band powers from _bandpower,
Hjorth parameters from _hjorth, time-domain statistics, and the spectral
entropy.  They are gathered in a record because welch/filtfilt and the
irrational functions (sqrt, log) are scipy/numpy library calls rather than
repository code; the vector assembly below embeds the repository's own
arithmetic exactly. -/
structure Analysis where
  band_abs : Band → ℚ
  band_rel : Band → ℚ
  activity : ℚ
  mobility : ℚ
  complexity : ℚ
  mean : ℚ
  std : ℚ
  skew : ℚ
  kurtosis : ℚ
  rms : ℚ
  zcr : ℚ
  spectral_entropy : ℚ

/-- The feats list assembled by extract_features (BCI_raw.py lines 134-152):
5 absolute band powers in band order, 5 relative band powers, the
alpha/theta and beta/alpha ratios with 1e-12 added to each power, the 3
Hjorth parameters, 6 time-domain statistics, and the spectral entropy. -/
def featsVec (a : Analysis) : List ℚ :=
  (allBands.map a.band_abs) ++ (allBands.map a.band_rel) ++
  [(a.band_abs Band.alpha + eps) / (a.band_abs Band.theta + eps),
   (a.band_abs Band.beta + eps) / (a.band_abs Band.alpha + eps)] ++
  [a.activity, a.mobility, a.complexity] ++
  [a.mean, a.std, a.skew, a.kurtosis, a.rms, a.zcr] ++
  [a.spectral_entropy]

/-- The y vector extract_features actually returns (BCI_raw.py lines
154-156): three normalized band-ratio features over the epsilon-shifted
powers, then Hjorth parameters, time statistics and spectral entropy. -/
def extract_features (a : Analysis) : List ℚ :=
  [(a.band_abs Band.alpha + eps) /
     ((a.band_abs Band.alpha + eps) + (a.band_abs Band.beta + eps) + (a.band_abs Band.theta + eps)),
   (a.band_abs Band.beta + eps) / ((a.band_abs Band.alpha + eps) + (a.band_abs Band.theta + eps)),
   (a.band_abs Band.alpha + eps) / ((a.band_abs Band.beta + eps) + (a.band_abs Band.theta + eps)),
   a.activity, a.mobility, a.complexity,
   a.mean, a.std, a.skew, a.kurtosis, a.rms, a.zcr,
   a.spectral_entropy]

/-- Modelled from the spec: the engineered-profile fixed field order of spec
section 4.3 -- 5 absolute band powers in band order delta..gamma, 5 relative
band powers, alpha/theta and beta/alpha ratios (epsilon-guarded), 3 Hjorth
parameters, 6 time-domain statistics, spectral entropy. -/
def specOrderedProfile (a : Analysis) : List ℚ :=
  [a.band_abs Band.delta, a.band_abs Band.theta, a.band_abs Band.alpha,
   a.band_abs Band.beta, a.band_abs Band.gamma,
   a.band_rel Band.delta, a.band_rel Band.theta, a.band_rel Band.alpha,
   a.band_rel Band.beta, a.band_rel Band.gamma,
   (a.band_abs Band.alpha + eps) / (a.band_abs Band.theta + eps),
   (a.band_abs Band.beta + eps) / (a.band_abs Band.alpha + eps),
   a.activity, a.mobility, a.complexity,
   a.mean, a.std, a.skew, a.kurtosis, a.rms, a.zcr,
   a.spectral_entropy]

/-- A concrete analysis record with pairwise-distinct values. -/
def analysisEx : Analysis where
  band_abs := fun b => match b with
    | .delta => 1 | .theta => 2 | .alpha => 3 | .beta => 4 | .gamma => 5
  band_rel := fun b => match b with
    | .delta => 1/10 | .theta => 2/10 | .alpha => 3/10 | .beta => 4/10 | .gamma => 5/10
  activity := 6
  mobility := 7
  complexity := 8
  mean := 9
  std := 10
  skew := 11
  kurtosis := 12
  rms := 13
  zcr := 14
  spectral_entropy := 15

/-- C3 counterexample: at a concrete window analysis the vector returned by
extract_features is not the documented engineered profile (it has 13 fields,
not 22, and its first field is a normalized ratio, not the delta power). -/
theorem extract_features_order_cex :
    extract_features analysisEx ≠ specOrderedProfile analysisEx := by
  intro h
  have h13 : (extract_features analysisEx).length = 13 := rfl
  have h22 : (specOrderedProfile analysisEx).length = 22 := rfl
  rw [h, h22] at h13
  exact absurd h13 (by norm_num)

/-- C3 (corrected): extract_features assembles the 22-field feats vector in
exactly the documented order (matching the spec profile field for field) but
then discards it and returns the separate 13-element y vector (normalized
attention-style ratios, Hjorth parameters, time statistics, spectral
entropy), so the returned vector is never in the documented order. -/
theorem extract_features_order :
    ∀ a : Analysis,
      featsVec a = specOrderedProfile a ∧
      (featsVec a).length = 22 ∧
      (extract_features a).length = 13 ∧
      extract_features a ≠ featsVec a := by
  intro a
  refine ⟨rfl, rfl, rfl, fun h => ?_⟩
  have h13 : (extract_features a).length = 13 := rfl
  have h22 : (featsVec a).length = 22 := rfl
  rw [h, h22] at h13
  exact absurd h13 (by norm_num)

/-- One row of the assembled matrix for one window (BCI_raw.py lines
296-304): the filtered raw samples hstacked with the engineered vector. -/
def rowOfWindow (filt : List ℚ) (a : Analysis) : List ℚ :=
  filt ++ extract_features a

/-- C9: under the fixed builder configuration the engineered vector has the
same dimension (13) for every window regardless of sample values, and every
assembled row has width (filtered window length) + 13. -/
theorem feature_dim_constant :
    ∀ a b : Analysis,
      (extract_features a).length = (extract_features b).length ∧
      (extract_features a).length = 13 ∧
      ∀ filt : List ℚ, (rowOfWindow filt a).length = filt.length + 13 := by
  intro a b
  exact ⟨rfl, rfl, fun filt => by simp [rowOfWindow, extract_features]⟩

/-- Width of the matrix actually fit per fold: 2500 filtered raw samples
hstacked with the 13 engineered features. -/
def matrix_width : ℕ := segment_samples + 13

/-- C7 counterexample: with configured_k = 2505 the classifier sets
k = min(2505, SAMPLING_RATE*SEGMENT_LENGTH) = 2500, while the matrix the
classifier is fit on has 2513 columns, so min(configured_k, matrix width)
would be 2505: the clamp does not use the fitted feature dimension. -/
theorem k_features_cex :
    k_features 2505 = 2500 ∧ matrix_width = 2513 ∧
    min 2505 matrix_width = 2505 ∧ k_features 2505 ≠ min 2505 matrix_width := by
  refine ⟨rfl, rfl, rfl, by decide⟩

/-- C7 (corrected): the selector size is clamped to
SAMPLING_RATE * SEGMENT_LENGTH = 2500 (the raw-window sample count), not to
the fitted matrix width 2513 = 2500 + 13; the clamp never exceeds the true
width (so SelectKBest cannot be configured past the column count), but for
2500 < configured_k it clamps to 2500 rather than to the matrix width. -/
theorem k_features_clamp :
    ∀ (c : ℕ) (a : Analysis) (filt : List ℚ),
      k_features c = min c (samplingRateCfg * segmentLengthCfg) ∧
      k_features c ≤ matrix_width ∧
      (filt.length = segment_samples → (rowOfWindow filt a).length = matrix_width) := by
  intro c a filt
  refine ⟨rfl, ?_, fun h => ?_⟩
  · simp only [k_features, matrix_width, segment_samples, samplingRateCfg, segmentLengthCfg]
    omega
  · simp [rowOfWindow, extract_features, matrix_width, segment_samples, h]

/-- A second concrete analysis record, used to witness the clamp theorem. -/
def analysisEx2 : Analysis where
  band_abs := fun _ => 1
  band_rel := fun _ => 1/5
  activity := 0
  mobility := 0
  complexity := 0
  mean := 0
  std := 0
  skew := 0
  kurtosis := 0
  rms := 0
  zcr := 0
  spectral_entropy := 0

/-- C7 witness: the clamp theorem applied at the shipped configuration
(N_FEATURES_SELECT = 11) and a full-length window. -/
theorem k_features_clamp_witness :
    k_features 11 = min 11 (samplingRateCfg * segmentLengthCfg) ∧
    (rowOfWindow (List.replicate segment_samples (0 : ℚ)) analysisEx2).length = matrix_width := by
  obtain ⟨h1, _, h3⟩ :=
    k_features_clamp 11 analysisEx2 (List.replicate segment_samples (0 : ℚ))
  exact ⟨h1, h3 (by simp)⟩

/-- numpy boolean-mask row selection X[mask] over parallel lists. -/
def maskSelect {α : Type} (xs : List α) (mask : List Bool) : List α :=
  ((xs.zip mask).filter (fun p => p.2)).map (fun p => p.1)

/-- train_mask = [s != test_subject for s in subjects] (BCI_raw.py line 362). -/
def train_mask (subjects : List String) (t : String) : List Bool :=
  subjects.map (fun s => decide (s ≠ t))

/-- test_mask = [s == test_subject for s in subjects] (BCI_raw.py line 363). -/
def test_mask (subjects : List String) (t : String) : List Bool :=
  subjects.map (fun s => decide (s = t))

/-- Selecting a list by a boolean mask computed from itself is filtering. -/
lemma maskSelect_self {α : Type} (f : α → Bool) :
    ∀ xs : List α, maskSelect xs (xs.map f) = xs.filter f := by
  intro xs
  induction xs with
  | nil => rfl
  | cons x xs ih =>
    simp only [maskSelect] at ih
    simp only [maskSelect, List.map_cons, List.zip_cons_cons, List.filter_cons]
    by_cases hx : f x
    · simp [hx, ih]
    · simp [hx, ih]

/-- Selecting zipped rows by a mask computed from the second components is
filtering the pairs on that predicate. -/
lemma maskSelect_zip {α β : Type} (f : β → Bool) :
    ∀ (xs : List α) (ys : List β),
      maskSelect (xs.zip ys) (ys.map f) = (xs.zip ys).filter (fun p => f p.2) := by
  intro xs
  induction xs with
  | nil => intro ys; rfl
  | cons x xs ih =>
    intro ys
    cases ys with
    | nil => rfl
    | cons y ys =>
      have ihy := ih ys
      simp only [maskSelect] at ihy
      simp only [maskSelect, List.map_cons, List.zip_cons_cons, List.filter_cons]
      by_cases hy : f y
      · simp [hy, ihy]
      · simp [hy, ihy]

/-- The (row, subject) pairs selected into a fold's training set: the rows of
X_train = X[train_mask] (BCI_raw.py line 365) paired positionally with their
subject ids.  classifier.fit receives exactly these rows, and inside
EnhancedBCIClassifier.fit (lines 224-237) the scaler, the feature selector
and the MLP are all fit on them alone. -/
def foldTrainPairs (X : List (List ℚ)) (subjects : List String) (t : String) :
    List (List ℚ × String) :=
  maskSelect (X.zip subjects) (train_mask subjects t)

/-- The (row, subject) pairs selected into a fold's test set
(X_test = X[test_mask], BCI_raw.py line 365). -/
def foldTestPairs (X : List (List ℚ)) (subjects : List String) (t : String) :
    List (List ℚ × String) :=
  maskSelect (X.zip subjects) (test_mask subjects t)

/-- C2: for every LOSO fold, the subject ids selected by the train mask are
all different from the held-out subject, those selected by the test mask all
equal it (so the two selections are disjoint), every subject id belongs to
exactly the train or the test selection (their union is all subject ids), and
no (row, subject) pair of the held-out subject is among the training rows the
fold's scaler/selector/classifier are fit on. -/
theorem loso_fold_invariants :
    ∀ (X : List (List ℚ)) (subjects : List String) (t : String),
      (∀ s ∈ maskSelect subjects (train_mask subjects t), s ≠ t) ∧
      (∀ s ∈ maskSelect subjects (test_mask subjects t), s = t) ∧
      (∀ s, s ∈ subjects ↔
        (s ∈ maskSelect subjects (train_mask subjects t) ∨
         s ∈ maskSelect subjects (test_mask subjects t))) ∧
      (∀ p ∈ foldTrainPairs X subjects t, p.2 ≠ t) ∧
      (∀ p ∈ foldTestPairs X subjects t, p.2 = t) := by
  intro X subjects t
  refine ⟨?_, ?_, ?_, ?_, ?_⟩
  · intro s hs
    rw [train_mask, maskSelect_self] at hs
    simpa using (List.mem_filter.mp hs).2
  · intro s hs
    rw [test_mask, maskSelect_self] at hs
    simpa using (List.mem_filter.mp hs).2
  · intro s
    constructor
    · intro hs
      by_cases hst : s = t
      · right
        rw [test_mask, maskSelect_self]
        exact List.mem_filter.mpr ⟨hs, by simp [hst]⟩
      · left
        rw [train_mask, maskSelect_self]
        exact List.mem_filter.mpr ⟨hs, by simp [hst]⟩
    · intro hs
      rcases hs with hs | hs
      · rw [train_mask, maskSelect_self] at hs
        exact (List.mem_filter.mp hs).1
      · rw [test_mask, maskSelect_self] at hs
        exact (List.mem_filter.mp hs).1
  · intro p hp
    rw [foldTrainPairs, train_mask, maskSelect_zip] at hp
    simpa using (List.mem_filter.mp hp).2
  · intro p hp
    rw [foldTestPairs, test_mask, maskSelect_zip] at hp
    simpa using (List.mem_filter.mp hp).2

/-- C2 witness: the invariants applied to a concrete two-subject dataset. -/
theorem loso_fold_invariants_witness : ("S1" : String) ≠ "S2" :=
  (loso_fold_invariants [] ["S1", "S2"] "S2").1 "S1" (by decide)

/-- Checked division: `some (x / y)` when the divisor is non-zero, `none`
exactly when the code would divide by zero. -/
def div? (x y : ℚ) : Option ℚ := if y = 0 then none else some (x / y)

/-- extract_attention_feature arithmetic (feature_extractor.py lines 81-87):
Ec = beta / (alpha + theta), with an explicit zero test on the denominator. -/
def attention_calc (alphaP betaP thetaP : ℚ) : ℚ :=
  if alphaP + thetaP = 0 then 0 else betaP / (alphaP + thetaP)

/-- extract_relaxation_feature arithmetic (lines 110-116):
alphaRatio = alpha / (theta + alpha + beta), with an explicit zero test. -/
def relaxation_calc (alphaP betaP thetaP : ℚ) : ℚ :=
  if thetaP + alphaP + betaP = 0 then 0 else alphaP / (thetaP + alphaP + betaP)

/-- The zero dictionary returned by extract_band_ratios on zero total power
or on an exception (feature_extractor.py lines 215-217 and 232-233). -/
def ratioZeros : List (String × ℚ) :=
  [("delta_ratio", 0), ("theta_ratio", 0), ("alpha_ratio", 0), ("beta_ratio", 0),
   ("gamma_ratio", 0), ("beta_alpha_ratio", 0), ("theta_alpha_ratio", 0),
   ("beta_theta_ratio", 0)]

/-- The ratio dictionary of extract_band_ratios (lines 210-229) as a function
of the five band powers: ratios to total guarded by a zero test on the total,
inter-band ratios guarded by positivity ternaries. -/
def band_ratios_calc (bp : Band → ℚ) : List (String × ℚ) :=
  let total := bp Band.delta + bp Band.theta + bp Band.alpha + bp Band.beta + bp Band.gamma
  if total = 0 then ratioZeros
  else
    [("delta_ratio", bp Band.delta / total),
     ("theta_ratio", bp Band.theta / total),
     ("alpha_ratio", bp Band.alpha / total),
     ("beta_ratio", bp Band.beta / total),
     ("gamma_ratio", bp Band.gamma / total),
     ("beta_alpha_ratio", if 0 < bp Band.alpha then bp Band.beta / bp Band.alpha else 0),
     ("theta_alpha_ratio", if 0 < bp Band.alpha then bp Band.theta / bp Band.alpha else 0),
     ("beta_theta_ratio", if 0 < bp Band.theta then bp Band.beta / bp Band.theta else 0)]

/-- Oracle inputs standing for the scipy/numpy library calls inside
EEGFeatureExtractor: _calculate_band_power (butter + filtfilt + fft, which
raises for signals shorter than the filtfilt padding -- `none` models a
raised exception), the FFT power spectrum np.abs(fft(signal))**2 of the raw
signal (whose length equals the signal length), and the irrational library
functions np.sqrt, np.exp, np.log. -/
structure EEGInput where
  signal : List ℚ
  bandPower : Band → Option ℚ
  spectrum : List ℚ
  sqrtQ : ℚ → ℚ
  expQ : ℚ → ℚ
  logQ : ℚ → ℚ

/-- extract_band_powers (lines 270-284): the band name -> power mapping;
`none` when _calculate_band_power raised for some band. -/
def extract_band_powers (inp : EEGInput) : Option (Band → ℚ) :=
  match inp.bandPower Band.delta, inp.bandPower Band.theta, inp.bandPower Band.alpha,
      inp.bandPower Band.beta, inp.bandPower Band.gamma with
  | some d, some t, some a, some b, some g =>
    some (fun x => match x with
      | Band.delta => d | Band.theta => t | Band.alpha => a
      | Band.beta => b | Band.gamma => g)
  | _, _, _, _, _ => none

/-- extract_attention_feature (lines 65-91): computes three band powers in a
try block, then the guarded ratio; any exception yields 0.0. -/
def extract_attention_feature (inp : EEGInput) : ℚ :=
  match inp.bandPower Band.alpha, inp.bandPower Band.beta, inp.bandPower Band.theta with
  | some a, some b, some t => attention_calc a b t
  | _, _, _ => 0

/-- extract_relaxation_feature (lines 93-120), same try/except shape. -/
def extract_relaxation_feature (inp : EEGInput) : ℚ :=
  match inp.bandPower Band.alpha, inp.bandPower Band.beta, inp.bandPower Band.theta with
  | some a, some b, some t => relaxation_calc a b t
  | _, _, _ => 0

/-- np.mean of a list (Lean's 0/0 = 0 stands in for numpy's nan on empty
input, which numpy produces without raising). -/
def lmean (l : List ℚ) : ℚ := l.sum / l.length

/-- np.var: mean squared deviation from the mean. -/
def lvar (l : List ℚ) : ℚ := lmean (l.map (fun x => (x - lmean l) ^ 2))

/-- k-th central moment, the building block of scipy's skew and kurtosis. -/
def moment (l : List ℚ) (k : ℕ) : ℚ := lmean (l.map (fun x => (x - lmean l) ^ k))

/-- np.sum(np.diff(np.signbit(signal))): the count of adjacent sign-bit
changes (np.diff on booleans is elementwise xor). -/
def zcrStat (l : List ℚ) : ℚ :=
  ((((l.map (fun x => decide (x < 0))).zip (l.map (fun x => decide (x < 0))).tail).filter
    (fun p => p.1 != p.2)).length : ℚ)

/-- Fixed key order of the statistical feature dictionary (lines 134-150). -/
def statKeys : List String :=
  ["mean", "std", "var", "skewness", "kurtosis", "rms", "peak_to_peak",
   "zero_crossing_rate", "energy", "power"]

/-- extract_statistical_features (lines 123-150): the feature dictionary, or
the all-zero dictionary over the same keys when the body raises (np.max and
np.min raise on an empty signal -- the only exception source on rational
data). -/
def extract_statistical_features (inp : EEGInput) : List (String × ℚ) :=
  match inp.signal with
  | [] => statKeys.map (fun k => (k, (0 : ℚ)))
  | x :: xs =>
    let s := x :: xs
    [("mean", lmean s),
     ("std", inp.sqrtQ (lvar s)),
     ("var", lvar s),
     ("skewness", moment s 3 / inp.sqrtQ (lvar s) ^ 3),
     ("kurtosis", moment s 4 / lvar s ^ 2 - 3),
     ("rms", inp.sqrtQ (lmean (s.map (fun v => v ^ 2)))),
     ("peak_to_peak", s.foldl max x - s.foldl min x),
     ("zero_crossing_rate", zcrStat s),
     ("energy", (s.map (fun v => v ^ 2)).sum),
     ("power", lmean (s.map (fun v => v ^ 2)))]

/-- Fixed key order of the frequency feature dictionary (lines 189-194). -/
def freqKeys : List String :=
  ["spectral_centroid", "spectral_rolloff", "spectral_bandwidth", "spectral_flatness"]

/-- scipy fftfreq positive half: frequencies i * fs / n for i < n / 2. -/
def positiveFreqs (n : ℕ) (fs : ℚ) : List ℚ :=
  (List.range (n / 2)).map (fun i => (i : ℚ) * fs / (n : ℚ))

/-- np.cumsum. -/
def cumsum (l : List ℚ) : List ℚ := (l.scanl (· + ·) 0).tail

/-- extract_frequency_features (lines 152-198), sampling_rate = 500.  When
the positive-frequency half is empty (signal shorter than 2 samples) the code
raises IndexError at cumulative_power[-1] and the except branch returns the
zero dictionary over the same keys; in-range numpy indexing is rendered with
getD, and total ℚ division stands in for numpy's non-raising nan. -/
def extract_frequency_features (inp : EEGInput) : List (String × ℚ) :=
  let n := inp.signal.length
  let pf := positiveFreqs n 500
  let pp := inp.spectrum.take (n / 2)
  if pp = [] then freqKeys.map (fun k => (k, (0 : ℚ)))
  else
    let centroid := ((pf.zip pp).map (fun q => q.1 * q.2)).sum / pp.sum
    let cum := cumsum pp
    let totalP := cum.getLastD 0
    let rolloff :=
      match cum.findIdx? (fun c => decide (95 / 100 * totalP ≤ c)) with
      | some i => pf.getD i 0
      | none => pf.getLastD 0
    let bandw :=
      inp.sqrtQ ((((pf.zip pp).map (fun q => (q.1 - centroid) ^ 2 * q.2)).sum) / pp.sum)
    let gm := inp.expQ (lmean (pp.map (fun p => inp.logQ (p + 1 / 10 ^ 10))))
    let am := lmean pp
    let flat := if 0 < am then gm / am else 0
    [("spectral_centroid", centroid),
     ("spectral_rolloff", rolloff),
     ("spectral_bandwidth", bandw),
     ("spectral_flatness", flat)]

/-- Fixed key order of the band-ratio dictionary (lines 219-228). -/
def ratioKeys : List String :=
  ["delta_ratio", "theta_ratio", "alpha_ratio", "beta_ratio", "gamma_ratio",
   "beta_alpha_ratio", "theta_alpha_ratio", "beta_theta_ratio"]

/-- extract_band_ratios (lines 200-233): the ratio dictionary, or the zero
dictionary over the same keys when extract_band_powers raised. -/
def extract_band_ratios (inp : EEGInput) : List (String × ℚ) :=
  match extract_band_powers inp with
  | none => ratioZeros
  | some bp => band_ratios_calc bp

/-- extract_all_features (lines 236-268): attention, relaxation, then the
merged statistical, frequency and band-ratio dictionaries (Python dict merge
in insertion order; the key sets are pairwise disjoint). -/
def extract_all_features (inp : EEGInput) : List (String × ℚ) :=
  [("attention", extract_attention_feature inp),
   ("relaxation", extract_relaxation_feature inp)] ++
  extract_statistical_features inp ++
  extract_frequency_features inp ++
  extract_band_ratios inp

/-- The full fixed key order of extract_all_features. -/
def allKeys : List String :=
  ["attention", "relaxation"] ++ statKeys ++ freqKeys ++ ratioKeys

/-- C10: every feature-extraction method of EEGFeatureExtractor is total and
returns a dictionary over its fixed key list for every input -- including
every failing-oracle input, where the except branch returns the all-zero
dictionary over exactly the same keys -- and consequently
extract_all_features always returns the same fixed key set and never
propagates an exception.  The conditional conjuncts additionally show the
exception paths return the all-zero dictionaries. -/
theorem eeg_extractor_total_keys :
    ∀ inp : EEGInput,
      (extract_statistical_features inp).map Prod.fst = statKeys ∧
      (extract_frequency_features inp).map Prod.fst = freqKeys ∧
      (extract_band_ratios inp).map Prod.fst = ratioKeys ∧
      (extract_all_features inp).map Prod.fst = allKeys ∧
      (inp.signal = [] →
        extract_statistical_features inp = statKeys.map (fun k => (k, (0 : ℚ)))) ∧
      (inp.spectrum.take (inp.signal.length / 2) = [] →
        extract_frequency_features inp = freqKeys.map (fun k => (k, (0 : ℚ)))) ∧
      (extract_band_powers inp = none → extract_band_ratios inp = ratioZeros) := by
  intro inp
  have h1 : (extract_statistical_features inp).map Prod.fst = statKeys := by
    cases hsig : inp.signal with
    | nil => simp [extract_statistical_features, hsig, statKeys]
    | cons x xs => simp [extract_statistical_features, hsig, statKeys]
  have h2 : (extract_frequency_features inp).map Prod.fst = freqKeys := by
    by_cases hpp : inp.spectrum.take (inp.signal.length / 2) = []
    · simp [extract_frequency_features, hpp, freqKeys]
    · simp [extract_frequency_features, hpp, freqKeys]
  have h3 : (extract_band_ratios inp).map Prod.fst = ratioKeys := by
    cases hbp : extract_band_powers inp with
    | none => simp [extract_band_ratios, hbp, ratioZeros, ratioKeys]
    | some bp =>
      by_cases htot :
          bp Band.delta + bp Band.theta + bp Band.alpha + bp Band.beta + bp Band.gamma = 0
      · simp [extract_band_ratios, hbp, band_ratios_calc, htot, ratioZeros, ratioKeys]
      · simp [extract_band_ratios, hbp, band_ratios_calc, htot, ratioKeys]
  refine ⟨h1, h2, h3, ?_, ?_, ?_, ?_⟩
  · simp [extract_all_features, allKeys, h1, h2, h3]
  · intro hsig
    simp [extract_statistical_features, hsig]
  · intro hpp
    simp [extract_frequency_features, hpp]
  · intro hbp
    simp [extract_band_ratios, hbp]

/-- A concrete failing-oracle input: empty signal, every band-power call
raising, empty spectrum. -/
def eegEmptyEx : EEGInput where
  signal := []
  bandPower := fun _ => none
  spectrum := []
  sqrtQ := id
  expQ := id
  logQ := id

/-- C10 witness: the theorem applied to the failing-oracle input, with all
three exception hypotheses discharged concretely. -/
theorem eeg_extractor_total_keys_witness :
    (extract_all_features eegEmptyEx).map Prod.fst = allKeys ∧
    extract_statistical_features eegEmptyEx = statKeys.map (fun k => (k, (0 : ℚ))) ∧
    extract_frequency_features eegEmptyEx = freqKeys.map (fun k => (k, (0 : ℚ))) ∧
    extract_band_ratios eegEmptyEx = ratioZeros := by
  obtain ⟨_, _, _, h4, h5, h6, h7⟩ := eeg_extractor_total_keys eegEmptyEx
  exact ⟨h4, h5 rfl, h6 rfl, h7 rfl⟩

/-- Modelled from the spec: attention with a small positive epsilon added to
the denominator before dividing, as the claim requires of both strategies. -/
def attention_eps_spec (alphaP betaP thetaP : ℚ) : ℚ :=
  betaP / (alphaP + thetaP + eps)

/-- C4 counterexample: at band powers alpha = 0, beta = 1, theta = 0 the
code's attention returns 0 through its explicit zero test, while an
epsilon-added denominator (1e-12, the claim's example) would give 10^12:
EEGFeatureExtractor adds no epsilon to its denominators. -/
theorem epsilon_guard_cex :
    attention_calc 0 1 0 = 0 ∧ attention_eps_spec 0 1 0 = 10 ^ 12 ∧
    attention_calc 0 1 0 ≠ attention_eps_spec 0 1 0 := by
  refine ⟨?_, ?_, ?_⟩ <;> norm_num [attention_calc, attention_eps_spec, eps]

/-- The relative-band-power division of BCI_raw's _bandpower with its divisor
checked. -/
def band_rel_checked (pts : List PsdPoint) (b : Band) : Option ℚ :=
  div? (band_abs pts b) (total_power pts)

/-- The y vector of extract_features with every division checked. -/
def extract_features_checked (a : Analysis) : Option (List ℚ) :=
  match
    div? (a.band_abs Band.alpha + eps)
      ((a.band_abs Band.alpha + eps) + (a.band_abs Band.beta + eps) + (a.band_abs Band.theta + eps)),
    div? (a.band_abs Band.beta + eps)
      ((a.band_abs Band.alpha + eps) + (a.band_abs Band.theta + eps)),
    div? (a.band_abs Band.alpha + eps)
      ((a.band_abs Band.beta + eps) + (a.band_abs Band.theta + eps)) with
  | some r1, some r2, some r3 =>
    some [r1, r2, r3, a.activity, a.mobility, a.complexity,
          a.mean, a.std, a.skew, a.kurtosis, a.rms, a.zcr, a.spectral_entropy]
  | _, _, _ => none

/-- The feats vector of extract_features with its two ratio divisions
checked. -/
def featsVec_checked (a : Analysis) : Option (List ℚ) :=
  match div? (a.band_abs Band.alpha + eps) (a.band_abs Band.theta + eps),
      div? (a.band_abs Band.beta + eps) (a.band_abs Band.alpha + eps) with
  | some rat, some rba =>
    some ((allBands.map a.band_abs) ++ (allBands.map a.band_rel) ++ [rat, rba] ++
      [a.activity, a.mobility, a.complexity] ++
      [a.mean, a.std, a.skew, a.kurtosis, a.rms, a.zcr] ++ [a.spectral_entropy])
  | _, _ => none

/-- attention_calc with its division checked. -/
def attention_checked (alphaP betaP thetaP : ℚ) : Option ℚ :=
  if alphaP + thetaP = 0 then some 0 else div? betaP (alphaP + thetaP)

/-- relaxation_calc with its division checked. -/
def relaxation_checked (alphaP betaP thetaP : ℚ) : Option ℚ :=
  if thetaP + alphaP + betaP = 0 then some 0 else div? alphaP (thetaP + alphaP + betaP)

/-- band_ratios_calc with every division checked. -/
def band_ratios_checked (bp : Band → ℚ) : Option (List (String × ℚ)) :=
  let total := bp Band.delta + bp Band.theta + bp Band.alpha + bp Band.beta + bp Band.gamma
  if total = 0 then some ratioZeros
  else
    match div? (bp Band.delta) total, div? (bp Band.theta) total, div? (bp Band.alpha) total,
        div? (bp Band.beta) total, div? (bp Band.gamma) total,
        (if 0 < bp Band.alpha then div? (bp Band.beta) (bp Band.alpha) else some 0),
        (if 0 < bp Band.alpha then div? (bp Band.theta) (bp Band.alpha) else some 0),
        (if 0 < bp Band.theta then div? (bp Band.beta) (bp Band.theta) else some 0) with
    | some dr, some tr, some ar, some br, some gr, some bar, some tar, some btr =>
      some [("delta_ratio", dr), ("theta_ratio", tr), ("alpha_ratio", ar),
            ("beta_ratio", br), ("gamma_ratio", gr), ("beta_alpha_ratio", bar),
            ("theta_alpha_ratio", tar), ("beta_theta_ratio", btr)]
    | _, _, _, _, _, _, _, _ => none

/-- C4 (corrected): in BCI_raw's FeatureExtractor every ratio denominator has
1e-12 added and is strictly positive given non-negative band powers (or a
sorted non-negative PSD), so none of its divisions divides by zero; in
feature_extractor.py's EEGFeatureExtractor no epsilon is added -- each
division is instead guarded by an explicit zero or positivity test on its
denominator, with 0.0 returned when the guard fails -- so none of its
divisions divides by exactly zero either: every checked variant returns the
code's value, never the division-by-zero marker. -/
theorem epsilon_guard_amended :
    (∀ pts : List PsdPoint, sortedPsd pts → nonnegPsd pts →
      ∀ b : Band, band_rel_checked pts b = some (band_rel pts b)) ∧
    (∀ a : Analysis, (∀ b, 0 ≤ a.band_abs b) →
      extract_features_checked a = some (extract_features a) ∧
      featsVec_checked a = some (featsVec a)) ∧
    (∀ x y z : ℚ, attention_checked x y z = some (attention_calc x y z)) ∧
    (∀ x y z : ℚ, relaxation_checked x y z = some (relaxation_calc x y z)) ∧
    (∀ bp : Band → ℚ, band_ratios_checked bp = some (band_ratios_calc bp)) := by
  have hepos : (0 : ℚ) < eps := by norm_num [eps]
  refine ⟨?_, ?_, ?_, ?_, ?_⟩
  · intro pts hs hn b
    have htp := total_power_pos pts hs hn
    simp [band_rel_checked, band_rel, div?, htp.ne']
  · intro a h
    have ha := h Band.alpha
    have hb := h Band.beta
    have ht := h Band.theta
    have hd1 : 0 < (a.band_abs Band.alpha + eps) + (a.band_abs Band.beta + eps) +
        (a.band_abs Band.theta + eps) := by linarith
    have hd2 : 0 < (a.band_abs Band.alpha + eps) + (a.band_abs Band.theta + eps) := by linarith
    have hd3 : 0 < (a.band_abs Band.beta + eps) + (a.band_abs Band.theta + eps) := by linarith
    have hd4 : 0 < a.band_abs Band.theta + eps := by linarith
    have hd5 : 0 < a.band_abs Band.alpha + eps := by linarith
    constructor
    · simp [extract_features_checked, extract_features, div?,
        hd1.ne', hd2.ne', hd3.ne']
    · simp [featsVec_checked, featsVec, div?, hd4.ne', hd5.ne']
  · intro x y z
    by_cases hc : x + z = 0
    · simp [attention_checked, attention_calc, hc]
    · simp [attention_checked, attention_calc, div?, hc]
  · intro x y z
    by_cases hc : z + x + y = 0
    · simp [relaxation_checked, relaxation_calc, hc]
    · simp [relaxation_checked, relaxation_calc, div?, hc]
  · intro bp
    by_cases htot :
        bp Band.delta + bp Band.theta + bp Band.alpha + bp Band.beta + bp Band.gamma = 0
    · simp [band_ratios_checked, band_ratios_calc, htot]
    · by_cases ha : 0 < bp Band.alpha <;> by_cases ht : 0 < bp Band.theta
      · simp [band_ratios_checked, band_ratios_calc, div?, htot, ha, ht, ha.ne', ht.ne']
      · simp [band_ratios_checked, band_ratios_calc, div?, htot, ha, ht, ha.ne']
      · simp [band_ratios_checked, band_ratios_calc, div?, htot, ha, ht, ht.ne']
      · simp [band_ratios_checked, band_ratios_calc, div?, htot, ha, ht]

/-- C4 witness: the checked forms agree with the code at a concrete PSD and
concrete band powers. -/
theorem epsilon_guard_witness :
    band_rel_checked psdEx Band.alpha = some (band_rel psdEx Band.alpha) ∧
    attention_checked 0 1 0 = some (attention_calc 0 1 0) ∧
    band_ratios_checked (fun _ => 0) = some (band_ratios_calc (fun _ => 0)) :=
  ⟨epsilon_guard_amended.1 psdEx (by decide) (by decide) Band.alpha,
   epsilon_guard_amended.2.2.1 0 1 0,
   epsilon_guard_amended.2.2.2.2 (fun _ => 0)⟩

/-- C3 witness: the amended theorem instantiated at a concrete analysis. -/
theorem extract_features_order_witness :
    featsVec analysisEx2 = specOrderedProfile analysisEx2 ∧
    (extract_features analysisEx2).length = 13 :=
  ⟨(extract_features_order analysisEx2).1, (extract_features_order analysisEx2).2.2.1⟩

/-- C9 witness: constant dimension at two concrete analyses and a concrete
row. -/
theorem feature_dim_constant_witness :
    (extract_features analysisEx).length = (extract_features analysisEx2).length ∧
    (rowOfWindow [] analysisEx).length = ([] : List ℚ).length + 13 :=
  ⟨(feature_dim_constant analysisEx analysisEx2).1,
   (feature_dim_constant analysisEx analysisEx2).2.2 []⟩

/-- C5 witness: the divergence theorem instantiated at fuel 5. -/
theorem overlap_ratio_one_diverges_witness :
    create_segments [(0 : ℚ), 0] 2 2 5 = none :=
  overlap_ratio_one_diverges.2 5
